import Mathlib

/-!
Verification of the affine kernel of the nnabla C runtime
(src/functions/implements/neural_network/affine/affine.c).

Modelling conventions.

The canonical floating value of the Typed Access Layer is modelled by the
rational numbers: all kernel arithmetic is exact in the model.  A tensor
buffer is modelled by its canonical value sequence, a total function from
flat indices to rationals; positions past the logical element count are
carried along so that out-of-range accesses of the C code stay observable.
C stores into the output buffer are modelled by a write that also appends
the written flat index to a write log, so that the number and the places
of the writes performed by one exec call are part of the semantics.
The C type nn_size_t / int used for indices is modelled by Nat; the
base_axis field (int32_t in C) is modelled by Nat, covering the whole
range that the spec declares meaningful (0 or more).
-/

/-- The data type tag of a variable (NN_DATA_TYPE_FLOAT, INT16, INT8, SIGN
in nnablart/functions.h). -/
inductive DataType where
  | float
  | int16
  | int8
  | sign
deriving DecidableEq, BEq, Repr

/-- A tensor variable (rt_variable_t): a shape, a data type tag, and a
buffer, modelled by its canonical (floating) value sequence. -/
structure Variable where
  shape : List ℕ
  type : DataType
  data : ℕ → ℚ

/-- Shape size (calc_shape_size of utilities.h, not under src/).
Modelled from the spec: the product of all dimension sizes, computed by a
running product over the dimensions as the C loop does. -/
def listProd (l : List ℕ) : ℕ := l.foldl (· * ·) 1

/-- Modelled from the spec: select_getter of utilities.h (not under src/)
resolves, from the variable type tag, a reader translating native storage
into the canonical floating value.  Buffers are modelled by their
canonical value sequence, so the resolved reader of every representation
is the read of that sequence; the tag argument is kept to mirror the
resolve-once-per-variable shape of the C interface. -/
def selectGetter (_v : Variable) : Variable → ℕ → ℚ := fun w i => w.data i

/-- Modelled from the spec: select_setter of utilities.h (not under src/)
resolves a writer translating the canonical floating value into native
storage; on the canonical-value model it stores the value at the flat
index. -/
def selectSetter (_v : Variable) : Variable → ℕ → ℚ → Variable :=
  fun w i x => { w with data := fun j => if j = i then x else w.data j }

/-- Bind-time failure (spec section 7 ConfigurationError).  The only
checks performed by allocate_affine_config are the two arity assertions;
an assertion failure is modelled as this error. -/
inductive ConfigurationError where
  | arityMismatch
deriving DecidableEq, Repr

/-- The resolved state of a bound affine kernel (struct affine_impl).
The C struct also stores the resolved getter and setter pointers; since
select_getter and select_setter are pure functions of the stored
variables, the model resolves them in place where the C code calls
through the stored pointer. -/
structure AffineImpl where
  baseAxis : ℕ
  input : Variable
  weight : Variable
  bias : Option Variable
  output : Variable
  outputSize : ℕ
  baseLoopSize : ℕ
  inputLoopSize : ℕ
  outputLoopSize : ℕ

def defaultVariable : Variable := ⟨[], DataType.float, fun _ => 0⟩

instance : Inhabited Variable := ⟨defaultVariable⟩

instance : Inhabited AffineImpl :=
  ⟨⟨0, defaultVariable, defaultVariable, none, defaultVariable, 0, 0, 0, 0⟩⟩

/-- allocate_affine_config (affine.c lines 48-98): the bind step of the
affine kernel.  The two C assertions (2 or 3 inputs, exactly 1 output)
are the only validation; everything else is resolution: input = inputs[0],
weight = inputs[1], bias = inputs[2] when present, output = outputs[0],
output_size = calc_shape_size(output->shape), and the three loop extents
computed from base_axis as running products over the shapes (lines 81-97:
base_loop_size over input dims below base_axis, input_loop_size over
input dims from base_axis up, output_loop_size over output dims from
base_axis up). -/
def allocate_affine_config (baseAxis : ℕ) (inputs outputs : List Variable) :
    Except ConfigurationError AffineImpl :=
  if (inputs.length = 2 ∨ inputs.length = 3) ∧ outputs.length = 1 then
    let input := inputs.getD 0 defaultVariable
    let weight := inputs.getD 1 defaultVariable
    let output := outputs.getD 0 defaultVariable
    let bias := if inputs.length > 2 then some (inputs.getD 2 defaultVariable) else none
    Except.ok
      { baseAxis := baseAxis
        input := input
        weight := weight
        bias := bias
        output := output
        outputSize := listProd output.shape
        baseLoopSize := listProd (input.shape.take baseAxis)
        inputLoopSize := listProd (input.shape.drop baseAxis)
        outputLoopSize := listProd (output.shape.drop baseAxis) }
  else
    Except.error ConfigurationError.arityMismatch

/-- A raw float buffer as seen by exec_affine_float, together with the
log of the flat indices written so far. -/
structure FloatBuf where
  data : ℕ → ℚ
  log : List ℕ

/-- One store into the output float buffer. -/
def bufStore (b : FloatBuf) (i : ℕ) (x : ℚ) : FloatBuf :=
  ⟨fun j => if j = i then x else b.data j, b.log ++ [i]⟩

/-- The memset of exec_affine_float line 127: element stores of 0.0f at
flat indices 0 .. n-1. -/
def memsetZero (b : FloatBuf) (n : ℕ) : FloatBuf :=
  (List.range n).foldl (fun acc i => bufStore acc i 0) b

/-- The innermost i loop shape shared by the accumulation (lines 139-146)
and the bias stage (lines 152-156): for i in [0, n), read the element at
oo + i and store back its value plus g i. -/
def addAt (g : ℕ → ℚ) (oo n : ℕ) (b : FloatBuf) : FloatBuf :=
  (List.range n).foldl
    (fun acc i => bufStore acc (oo + i) (acc.data (oo + i) + g i)) b

/-- The weight stage of one row (affine.c lines 134-147): for every input
feature j, u = input[io + j], and for every output feature i,
output[oo + i] += u * weight[j * ol + i]. -/
def affine_weight_inner (input weight : ℕ → ℚ) (il ol io oo : ℕ) (b : FloatBuf) :
    FloatBuf :=
  (List.range il).foldl
    (fun acc j => addAt (fun i => input (io + j) * weight (j * ol + i)) oo ol acc) b

/-- The outer k loop of exec_affine_float (lines 129-158): per row the
weight stage, then, when a bias is bound, the bias stage adding bias[i]
at output[k * ol + i]. -/
def affine_rows (input weight : ℕ → ℚ) (bias : Option (ℕ → ℚ))
    (bl il ol : ℕ) (b : FloatBuf) : FloatBuf :=
  (List.range bl).foldl
    (fun acc k =>
      let acc1 := affine_weight_inner input weight il ol (k * il) (k * ol) acc
      match bias with
      | some bf => addAt bf (k * ol) ol acc1
      | none => acc1) b

/-- exec_affine_float (affine.c lines 116-159): clear the whole output
buffer (output_size elements), then run the row loop.  Only the data of
the output variable changes; the write log of the call is returned
alongside. -/
def exec_affine_float (p : AffineImpl) : AffineImpl × List ℕ :=
  let b0 := memsetZero ⟨p.output.data, []⟩ p.outputSize
  let b1 := affine_rows p.input.data p.weight.data (p.bias.map fun v => v.data)
    p.baseLoopSize p.inputLoopSize p.outputLoopSize b0
  ({ p with output := { p.output with data := b1.data } }, b1.log)

/-- The state threaded by exec_affine_generic: the output variable being
written through the resolved setter, plus the write log. -/
structure GenBuf where
  var : Variable
  log : List ℕ

/-- One set_output call of the generic path. -/
def genWrite (setf : Variable → ℕ → ℚ → Variable) (s : GenBuf) (i : ℕ) (x : ℚ) :
    GenBuf :=
  ⟨setf s.var i x, s.log ++ [i]⟩

/-- The clear loop of exec_affine_generic (lines 169-171):
set_output(output, i, 0) for every i below output_size. -/
def gen_zero_fill (p : AffineImpl) (s : GenBuf) : GenBuf :=
  (List.range p.outputSize).foldl
    (fun acc i => genWrite (selectSetter p.output) acc i 0) s

/-- The weight stage of one row of the generic path (lines 178-191),
with every element access through the resolved accessors. -/
def gen_weight_row (p : AffineImpl) (k : ℕ) (s : GenBuf) : GenBuf :=
  (List.range p.inputLoopSize).foldl
    (fun sj j =>
      (List.range p.outputLoopSize).foldl
        (fun si i =>
          genWrite (selectSetter p.output) si (k * p.outputLoopSize + i)
            (selectGetter p.output si.var (k * p.outputLoopSize + i)
              + selectGetter p.input p.input (k * p.inputLoopSize + j)
                * selectGetter p.weight p.weight (j * p.outputLoopSize + i))) sj) s

/-- The bias stage of one row of the generic path (lines 194-201). -/
def gen_bias_row (p : AffineImpl) (bv : Variable) (k : ℕ) (s : GenBuf) : GenBuf :=
  (List.range p.outputLoopSize).foldl
    (fun si i =>
      genWrite (selectSetter p.output) si (k * p.outputLoopSize + i)
        (selectGetter p.output si.var (k * p.outputLoopSize + i)
          + selectGetter bv bv i)) s

/-- The outer k loop of exec_affine_generic (lines 173-202). -/
def gen_rows (p : AffineImpl) (s : GenBuf) : GenBuf :=
  (List.range p.baseLoopSize).foldl
    (fun acc k =>
      let acc1 := gen_weight_row p k acc
      match p.bias with
      | some bv => gen_bias_row p bv k acc1
      | none => acc1) s

/-- exec_affine_generic (affine.c lines 161-203). -/
def exec_affine_generic (p : AffineImpl) : AffineImpl × List ℕ :=
  let s2 := gen_rows p (gen_zero_fill p ⟨p.output, []⟩)
  ({ p with output := s2.var }, s2.log)

/-- The uniform-Float32 guard of exec_affine.  The guard expression in
the source (affine.c lines 106-109) is missing a closing parenthesis and
does not parse; following the intended condition that the spec states as
the contract: input, output and weight carry the Float32 tag, and the
bias, when bound, does as well. -/
def affine_float_applicable (p : AffineImpl) : Bool :=
  decide (p.input.type = DataType.float)
    && decide (p.output.type = DataType.float)
    && decide (p.weight.type = DataType.float)
    && (match p.bias with
        | none => true
        | some b => decide (b.type = DataType.float))

/-- exec_affine (affine.c lines 104-114): dispatch to the direct float
strategy when the uniform-Float32 guard holds, otherwise to the generic
strategy. -/
def exec_affine (p : AffineImpl) : AffineImpl × List ℕ :=
  if affine_float_applicable p then exec_affine_float p else exec_affine_generic p

/-- True exactly when bind succeeded. -/
def bindOk (r : Except ConfigurationError AffineImpl) : Bool :=
  match r with
  | Except.ok _ => true
  | Except.error _ => false

/-- The resolved state of a successful bind (meaningless default on a
failed bind). -/
def implOf (r : Except ConfigurationError AffineImpl) : AffineImpl :=
  match r with
  | Except.ok p => p
  | Except.error _ => default

/-- The projection of the generic-path state onto the raw float buffer
view: the canonical data of the output variable plus the write log. -/
def projBuf (s : GenBuf) : FloatBuf := ⟨s.var.data, s.log⟩

/- Concrete fixtures: the end-to-end scenario of the spec. -/

/-- Scenario input: shape [2,3], rows [1,2,3] and [4,5,6]. -/
def sIn : Variable :=
  ⟨[2, 3], DataType.float, fun i => ([1, 2, 3, 4, 5, 6] : List ℚ).getD i 0⟩

/-- Scenario weight: logical shape [3,4], rows [1,0,0,0], [0,1,0,0],
[0,0,1,0]. -/
def sW : Variable :=
  ⟨[3, 4], DataType.float,
    fun i => ([1, 0, 0, 0, 0, 1, 0, 0, 0, 0, 1, 0] : List ℚ).getD i 0⟩

/-- Scenario bias: [1,1,1,1]. -/
def sB : Variable := ⟨[4], DataType.float, fun _ => 1⟩

/-- Scenario output variable: shape [2,4], initially zero. -/
def sOut : Variable := ⟨[2, 4], DataType.float, fun _ => 0⟩

/-- The scenario kernel, bound with base_axis 1. -/
def sImpl : AffineImpl := implOf (allocate_affine_config 1 [sIn, sW, sB] [sOut])

/-- An all-zero bias variable of shape [4]. -/
def zB : Variable := ⟨[4], DataType.float, fun _ => 0⟩

/-- A weight variable of 5 elements, inconsistent with the scenario
extents 3 * 4 = 12. -/
def c5W : Variable := ⟨[5], DataType.float, fun _ => 1⟩

/-- An input variable with an empty leading dimension. -/
def c9In : Variable := ⟨[0, 3], DataType.float, fun _ => 0⟩

/-- A weight for the empty-batch binding. -/
def c9W : Variable := ⟨[3, 4], DataType.float, fun _ => 1⟩

/-- An output variable of shape [2,4] paired with the empty-batch
input. -/
def c9Out : Variable := ⟨[2, 4], DataType.float, fun _ => 0⟩

/-- The empty-batch kernel: base_loop_size 0 from the empty leading
input dimension, but an output buffer of 8 elements. -/
def c9P : AffineImpl := implOf (allocate_affine_config 1 [c9In, c9W] [c9Out])

/-- Input of shape [2,1] for the spill binding: two batch rows. -/
def c10In : Variable := ⟨[2, 1], DataType.float, fun _ => 1⟩

/-- Weight of one element for the spill binding. -/
def c10W : Variable := ⟨[1, 1], DataType.float, fun _ => 1⟩

/-- Output of shape [1,1] for the spill binding: its leading dimension 1
disagrees with the two batch rows of the input. -/
def c10Out : Variable := ⟨[1, 1], DataType.float, fun _ => 0⟩

/-- The spill kernel: base_loop_size 2, output_loop_size 1, but an output
buffer of one element, so row 1 writes past the zero-filled region. -/
def c10P : AffineImpl := implOf (allocate_affine_config 1 [c10In, c10W] [c10Out])

/-- A non-float input variable, for exercising the generic dispatch. -/
def gIn : Variable := ⟨[1, 1], DataType.int8, fun _ => 1⟩

/-- Weight paired with the non-float input. -/
def gW : Variable := ⟨[1, 1], DataType.float, fun _ => 1⟩

/-- Output paired with the non-float input. -/
def gOut : Variable := ⟨[1, 1], DataType.float, fun _ => 0⟩

/-- A kernel whose input is not Float32. -/
def gP : AffineImpl := implOf (allocate_affine_config 1 [gIn, gW] [gOut])

/-- A projection commuting with every loop step commutes with the loop. -/
theorem foldl_proj {α β γ : Type} (f : α → β) (g : α → γ → α) (h : β → γ → β)
    (hc : ∀ a c, f (g a c) = h (f a) c) :
    ∀ (l : List γ) (a : α), f (l.foldl g a) = l.foldl h (f a) := by
  intro l
  induction l with
  | nil => intro a; rfl
  | cons x xs ih =>
    intro a
    simp only [List.foldl_cons]
    rw [ih, hc]

/-- A property preserved by every loop step is preserved by the loop. -/
theorem foldl_keeps {α γ : Type} (P : α → Prop) (g : α → γ → α)
    (hstep : ∀ a c, P a → P (g a c)) :
    ∀ (l : List γ) (a : α), P a → P (l.foldl g a) := by
  intro l
  induction l with
  | nil => intro a ha; exact ha
  | cons x xs ih =>
    intro a ha
    simp only [List.foldl_cons]
    exact ih _ (hstep a x ha)

/-- Unfolding the last iteration of the memset loop. -/
theorem memsetZero_succ (b : FloatBuf) (n : ℕ) :
    memsetZero b (n + 1) = bufStore (memsetZero b n) n 0 := by
  unfold memsetZero
  rw [List.range_succ, List.foldl_append]
  rfl

/-- Unfolding the last iteration of the addAt loop. -/
theorem addAt_succ (g : ℕ → ℚ) (oo n : ℕ) (b : FloatBuf) :
    addAt g oo (n + 1) b
      = bufStore (addAt g oo n b) (oo + n) ((addAt g oo n b).data (oo + n) + g n) := by
  unfold addAt
  rw [List.range_succ, List.foldl_append]
  rfl

/-- Unfolding the last iteration of the weight-stage loop. -/
theorem affine_weight_inner_succ (input weight : ℕ → ℚ) (il ol io oo : ℕ)
    (b : FloatBuf) :
    affine_weight_inner input weight (il + 1) ol io oo b
      = addAt (fun i => input (io + il) * weight (il * ol + i)) oo ol
          (affine_weight_inner input weight il ol io oo b) := by
  unfold affine_weight_inner
  rw [List.range_succ, List.foldl_append]
  rfl

/-- Unfolding the last iteration of the row loop. -/
theorem affine_rows_succ (input weight : ℕ → ℚ) (bias : Option (ℕ → ℚ))
    (bl il ol : ℕ) (b : FloatBuf) :
    affine_rows input weight bias (bl + 1) il ol b
      = (match bias with
         | some bf => addAt bf (bl * ol) ol
             (affine_weight_inner input weight il ol (bl * il) (bl * ol)
               (affine_rows input weight bias bl il ol b))
         | none => affine_weight_inner input weight il ol (bl * il) (bl * ol)
             (affine_rows input weight bias bl il ol b)) := by
  unfold affine_rows
  rw [List.range_succ, List.foldl_append]
  cases bias <;> rfl

/-- Reading a stored buffer. -/
theorem bufStore_data (b : FloatBuf) (i : ℕ) (x : ℚ) (q : ℕ) :
    (bufStore b i x).data q = if q = i then x else b.data q := rfl

/-- The memset writes zero below n and leaves the rest of the address
space alone. -/
theorem memsetZero_data (b : FloatBuf) (n : ℕ) (q : ℕ) :
    (memsetZero b n).data q = if q < n then 0 else b.data q := by
  induction n with
  | zero => simp [memsetZero]
  | succ n ih =>
    rw [memsetZero_succ, bufStore_data]
    by_cases hq : q = n
    · subst hq
      simp
    · rw [if_neg hq, ih]
      by_cases hlt : q < n
      · rw [if_pos hlt, if_pos (by omega)]
      · rw [if_neg hlt, if_neg (by omega)]

/-- The memset appends the indices 0 .. n-1 to the log. -/
theorem memsetZero_log (b : FloatBuf) (n : ℕ) :
    (memsetZero b n).log = b.log ++ List.range n := by
  induction n with
  | zero => simp [memsetZero]
  | succ n ih =>
    rw [memsetZero_succ]
    show (memsetZero b n).log ++ [n] = _
    rw [ih, List.range_succ, List.append_assoc]

/-- addAt leaves every position outside its write window alone. -/
theorem addAt_frame (g : ℕ → ℚ) (oo n : ℕ) (b : FloatBuf) (q : ℕ)
    (hq : ∀ i, i < n → q ≠ oo + i) :
    (addAt g oo n b).data q = b.data q := by
  induction n with
  | zero => rfl
  | succ n ih =>
    rw [addAt_succ, bufStore_data, if_neg (hq n (by omega))]
    exact ih fun i hi => hq i (by omega)

/-- addAt adds g i at position oo + i, for i inside the window. -/
theorem addAt_data_at (g : ℕ → ℚ) (oo n : ℕ) (b : FloatBuf) (i : ℕ)
    (hi : i < n) :
    (addAt g oo n b).data (oo + i) = b.data (oo + i) + g i := by
  induction n with
  | zero => omega
  | succ n ih =>
    rw [addAt_succ, bufStore_data]
    by_cases hin : i = n
    · subst hin
      rw [if_pos rfl, addAt_frame g oo i b (oo + i) (fun j hj => by omega)]
    · rw [if_neg (by omega), ih (by omega)]

/-- The data written by addAt depends on the incoming state only through
its data. -/
theorem addAt_data_ext (g : ℕ → ℚ) (oo n : ℕ) :
    ∀ (b₁ b₂ : FloatBuf), b₁.data = b₂.data →
      (addAt g oo n b₁).data = (addAt g oo n b₂).data := by
  induction n with
  | zero => intro b₁ b₂ h; exact h
  | succ n ih =>
    intro b₁ b₂ h
    rw [addAt_succ, addAt_succ]
    funext q
    rw [bufStore_data, bufStore_data, ih b₁ b₂ h]

/-- Adding an all-zero function changes no data. -/
theorem addAt_zero_data (oo n : ℕ) (b : FloatBuf) :
    (addAt (fun _ => (0 : ℚ)) oo n b).data = b.data := by
  induction n with
  | zero => rfl
  | succ n ih =>
    rw [addAt_succ]
    funext q
    rw [bufStore_data]
    by_cases hq : q = oo + n
    · subst hq
      rw [if_pos rfl, add_zero]
      exact congrFun ih _
    · rw [if_neg hq]
      exact congrFun ih q

/-- The weight stage leaves every position outside its row window
alone. -/
theorem affine_weight_inner_frame (input weight : ℕ → ℚ) (il ol io oo : ℕ)
    (b : FloatBuf) (q : ℕ) (hq : ∀ i, i < ol → q ≠ oo + i) :
    (affine_weight_inner input weight il ol io oo b).data q = b.data q := by
  induction il with
  | zero => rfl
  | succ il ih =>
    rw [affine_weight_inner_succ, addAt_frame _ _ _ _ _ hq, ih]

/-- The weight stage accumulates, at position oo + i of its row, the sum
over the input features j of input[io + j] * weight[j * ol + i]. -/
theorem affine_weight_inner_at (input weight : ℕ → ℚ) (il ol io oo : ℕ)
    (b : FloatBuf) (i : ℕ) (hi : i < ol) :
    (affine_weight_inner input weight il ol io oo b).data (oo + i)
      = b.data (oo + i)
        + ∑ j ∈ Finset.range il, input (io + j) * weight (j * ol + i) := by
  induction il with
  | zero => simp [affine_weight_inner]
  | succ il ih =>
    rw [affine_weight_inner_succ, addAt_data_at _ _ _ _ _ hi, ih,
      Finset.sum_range_succ, add_assoc]

/-- The data written by the weight stage depends on the incoming state
only through its data. -/
theorem affine_weight_inner_data_ext (input weight : ℕ → ℚ) (il ol io oo : ℕ) :
    ∀ (b₁ b₂ : FloatBuf), b₁.data = b₂.data →
      (affine_weight_inner input weight il ol io oo b₁).data
        = (affine_weight_inner input weight il ol io oo b₂).data := by
  induction il with
  | zero => intro b₁ b₂ h; exact h
  | succ il ih =>
    intro b₁ b₂ h
    rw [affine_weight_inner_succ, affine_weight_inner_succ]
    exact addAt_data_ext _ _ _ _ _ (ih b₁ b₂ h)

/-- Positions of distinct rows are disjoint: a write of an earlier row
lands strictly below every position of a later row. -/
theorem row_pos_lt (k k' i i' ol : ℕ) (hkk : k < k') (hi : i < ol) :
    k * ol + i < k' * ol + i' := by
  have h1 : k * ol + i < (k + 1) * ol := by
    rw [Nat.succ_mul]
    omega
  have h2 : (k + 1) * ol ≤ k' * ol := Nat.mul_le_mul_right ol hkk
  omega

/-- The row loop leaves every position outside all row windows alone. -/
theorem affine_rows_frame (input weight : ℕ → ℚ) (bias : Option (ℕ → ℚ))
    (bl il ol : ℕ) (b : FloatBuf) (q : ℕ)
    (hq : ∀ k i, k < bl → i < ol → q ≠ k * ol + i) :
    (affine_rows input weight bias bl il ol b).data q = b.data q := by
  induction bl with
  | zero => rfl
  | succ bl ih =>
    have hlast : ∀ i, i < ol → q ≠ bl * ol + i := fun i hi => hq bl i (by omega) hi
    have hrest : ∀ k i, k < bl → i < ol → q ≠ k * ol + i :=
      fun k i hk hi => hq k i (by omega) hi
    rw [affine_rows_succ]
    cases bias with
    | none => rw [affine_weight_inner_frame _ _ _ _ _ _ _ _ hlast, ih hrest]
    | some bf =>
      rw [addAt_frame _ _ _ _ _ hlast,
        affine_weight_inner_frame _ _ _ _ _ _ _ _ hlast, ih hrest]

/-- The row loop produces, at position k * ol + i of row k, the incoming
value plus the matrix-vector accumulation for that row, plus the bias
element i when a bias is bound. -/
theorem affine_rows_at (input weight : ℕ → ℚ) (bias : Option (ℕ → ℚ))
    (bl il ol : ℕ) (b : FloatBuf) (k i : ℕ) (hk : k < bl) (hi : i < ol) :
    (affine_rows input weight bias bl il ol b).data (k * ol + i)
      = b.data (k * ol + i)
        + (∑ j ∈ Finset.range il, input (k * il + j) * weight (j * ol + i))
        + (match bias with
           | some bf => bf i
           | none => 0) := by
  induction bl with
  | zero => omega
  | succ bl ih =>
    rw [affine_rows_succ]
    by_cases hkb : k = bl
    · subst hkb
      have hfr : ∀ k' i', k' < k → i' < ol → k * ol + i ≠ k' * ol + i' :=
        fun k' i' hk' hi' =>
          Nat.ne_of_gt (row_pos_lt k' k i' i ol hk' hi')
      have hbase :
          (affine_rows input weight bias k il ol b).data (k * ol + i)
            = b.data (k * ol + i) :=
        affine_rows_frame _ _ _ _ _ _ _ _
          (fun k' i' hk' hi' => Nat.ne_of_gt (row_pos_lt k' k i' i ol hk' hi'))
      cases bias with
      | none =>
        rw [affine_weight_inner_at _ _ _ _ _ _ _ _ hi, hbase, add_zero]
      | some bf =>
        rw [addAt_data_at _ _ _ _ _ hi,
          affine_weight_inner_at _ _ _ _ _ _ _ _ hi, hbase]
    · have hklt : k < bl := by omega
      have hne : ∀ i', i' < ol → k * ol + i ≠ bl * ol + i' :=
        fun i' _ => Nat.ne_of_lt (row_pos_lt k bl i i' ol hklt hi)
      cases bias with
      | none =>
        rw [affine_weight_inner_frame _ _ _ _ _ _ _ _ hne, ih hklt]
      | some bf =>
        rw [addAt_frame _ _ _ _ _ hne,
          affine_weight_inner_frame _ _ _ _ _ _ _ _ hne, ih hklt]

/-- The data written by the row loop depends on the incoming state only
through its data. -/
theorem affine_rows_data_ext (input weight : ℕ → ℚ) (bias : Option (ℕ → ℚ))
    (bl il ol : ℕ) :
    ∀ (b₁ b₂ : FloatBuf), b₁.data = b₂.data →
      (affine_rows input weight bias bl il ol b₁).data
        = (affine_rows input weight bias bl il ol b₂).data := by
  induction bl with
  | zero => intro b₁ b₂ h; exact h
  | succ bl ih =>
    intro b₁ b₂ h
    rw [affine_rows_succ, affine_rows_succ]
    cases bias with
    | none => exact affine_weight_inner_data_ext _ _ _ _ _ _ _ _ (ih b₁ b₂ h)
    | some bf =>
      exact addAt_data_ext _ _ _ _ _
        (affine_weight_inner_data_ext _ _ _ _ _ _ _ _ (ih b₁ b₂ h))

/-- An all-zero bound bias yields the same data as an absent bias. -/
theorem affine_rows_zero_bias (input weight : ℕ → ℚ) (bl il ol : ℕ) :
    ∀ (b₁ b₂ : FloatBuf), b₁.data = b₂.data →
      (affine_rows input weight (some fun _ => (0 : ℚ)) bl il ol b₁).data
        = (affine_rows input weight none bl il ol b₂).data := by
  induction bl with
  | zero => intro b₁ b₂ h; exact h
  | succ bl ih =>
    intro b₁ b₂ h
    rw [affine_rows_succ, affine_rows_succ]
    show (addAt _ _ _ _).data = _
    rw [addAt_zero_data]
    exact affine_weight_inner_data_ext _ _ _ _ _ _ _ _ (ih b₁ b₂ h)

/-- The output data of the direct strategy is the row loop applied to the
zero-filled buffer. -/
theorem exec_affine_float_output (p : AffineImpl) :
    (exec_affine_float p).1.output.data
      = (affine_rows p.input.data p.weight.data (p.bias.map fun v => v.data)
          p.baseLoopSize p.inputLoopSize p.outputLoopSize
          (memsetZero ⟨p.output.data, []⟩ p.outputSize)).data := rfl

/-- The write log of the direct strategy. -/
theorem exec_affine_float_log (p : AffineImpl) :
    (exec_affine_float p).2
      = (affine_rows p.input.data p.weight.data (p.bias.map fun v => v.data)
          p.baseLoopSize p.inputLoopSize p.outputLoopSize
          (memsetZero ⟨p.output.data, []⟩ p.outputSize)).log := rfl

/-- Row positions stay below the product of the extents. -/
theorem row_pos_lt_total (k i bl ol : ℕ) (hk : k < bl) (hi : i < ol) :
    k * ol + i < bl * ol := by
  have := row_pos_lt k bl i 0 ol hk hi
  omega

/-- Value of the direct strategy at a row position, when every row
position lies inside the zero-filled region. -/
theorem exec_affine_float_at (p : AffineImpl) (k i : ℕ)
    (hk : k < p.baseLoopSize) (hi : i < p.outputLoopSize)
    (hos : p.baseLoopSize * p.outputLoopSize ≤ p.outputSize) :
    (exec_affine_float p).1.output.data (k * p.outputLoopSize + i)
      = (∑ j ∈ Finset.range p.inputLoopSize,
          p.input.data (k * p.inputLoopSize + j)
            * p.weight.data (j * p.outputLoopSize + i))
        + (match p.bias with
           | some bv => bv.data i
           | none => 0) := by
  rw [exec_affine_float_output,
    affine_rows_at _ _ _ _ _ _ _ _ _ hk hi, memsetZero_data,
    if_pos (by have := row_pos_lt_total k i _ _ hk hi; omega), zero_add]
  cases p.bias <;> rfl

/-- The direct strategy leaves every position at or above output_size
alone, when every row position lies inside the zero-filled region. -/
theorem exec_affine_float_ge (p : AffineImpl) (q : ℕ)
    (hos : p.baseLoopSize * p.outputLoopSize ≤ p.outputSize)
    (hq : p.outputSize ≤ q) :
    (exec_affine_float p).1.output.data q = p.output.data q := by
  rw [exec_affine_float_output, affine_rows_frame, memsetZero_data,
    if_neg (by omega)]
  intro k i hk hi
  have := row_pos_lt_total k i _ _ hk hi
  omega

/-- Below output_size, a position belonging to no row reads zero after
exec. -/
theorem exec_affine_float_zero_at (p : AffineImpl) (q : ℕ)
    (hq : q < p.outputSize)
    (hnr : ∀ k i, k < p.baseLoopSize → i < p.outputLoopSize →
      q ≠ k * p.outputLoopSize + i) :
    (exec_affine_float p).1.output.data q = 0 := by
  rw [exec_affine_float_output, affine_rows_frame _ _ _ _ _ _ _ _ hnr,
    memsetZero_data, if_pos hq]

/-- Below output_size the result of the direct strategy is independent of
the prior contents of the output buffer, when every row position lies
inside the zero-filled region. -/
theorem exec_affine_float_insensitive (p : AffineImpl) (d₁ d₂ : ℕ → ℚ)
    (hos : p.baseLoopSize * p.outputLoopSize ≤ p.outputSize) (q : ℕ)
    (hq : q < p.outputSize) :
    (exec_affine_float { p with output := { p.output with data := d₁ } }).1.output.data q
      = (exec_affine_float { p with output := { p.output with data := d₂ } }).1.output.data q := by
  by_cases hrow : ∃ k, k < p.baseLoopSize
      ∧ ∃ i, i < p.outputLoopSize ∧ q = k * p.outputLoopSize + i
  · obtain ⟨k, hk, i, hi, rfl⟩ := hrow
    exact (exec_affine_float_at
        { p with output := { p.output with data := d₁ } } k i hk hi hos).trans
      (exec_affine_float_at
        { p with output := { p.output with data := d₂ } } k i hk hi hos).symm
  · push_neg at hrow
    exact (exec_affine_float_zero_at
        { p with output := { p.output with data := d₁ } } q hq
        (fun k i hk hi => hrow k hk i hi)).trans
      (exec_affine_float_zero_at
        { p with output := { p.output with data := d₂ } } q hq
        (fun k i hk hi => hrow k hk i hi)).symm

/-- One generic-path set call projects onto one raw-buffer store. -/
theorem projBuf_genWrite (v : Variable) (s : GenBuf) (i : ℕ) (x : ℚ) :
    projBuf (genWrite (selectSetter v) s i x) = bufStore (projBuf s) i x := rfl

/-- The generic clear loop projects onto the memset of the direct
strategy. -/
theorem gen_zero_fill_proj (p : AffineImpl) (s : GenBuf) :
    projBuf (gen_zero_fill p s) = memsetZero (projBuf s) p.outputSize := by
  unfold gen_zero_fill memsetZero
  exact foldl_proj projBuf _ _ (fun a c => rfl) _ _

/-- The generic weight stage projects onto the direct weight stage. -/
theorem gen_weight_row_proj (p : AffineImpl) (k : ℕ) (s : GenBuf) :
    projBuf (gen_weight_row p k s)
      = affine_weight_inner p.input.data p.weight.data
          p.inputLoopSize p.outputLoopSize
          (k * p.inputLoopSize) (k * p.outputLoopSize) (projBuf s) := by
  unfold gen_weight_row affine_weight_inner
  refine foldl_proj projBuf _ _ (fun a j => ?_) _ _
  unfold addAt
  exact foldl_proj projBuf _ _ (fun a i => rfl) _ _

/-- The generic bias stage projects onto the direct bias stage. -/
theorem gen_bias_row_proj (p : AffineImpl) (bv : Variable) (k : ℕ) (s : GenBuf) :
    projBuf (gen_bias_row p bv k s)
      = addAt bv.data (k * p.outputLoopSize) p.outputLoopSize (projBuf s) := by
  unfold gen_bias_row addAt
  exact foldl_proj projBuf _ _ (fun a i => rfl) _ _

/-- The generic row loop projects onto the direct row loop. -/
theorem gen_rows_proj (p : AffineImpl) (s : GenBuf) :
    projBuf (gen_rows p s)
      = affine_rows p.input.data p.weight.data (p.bias.map fun v => v.data)
          p.baseLoopSize p.inputLoopSize p.outputLoopSize (projBuf s) := by
  unfold gen_rows affine_rows
  refine foldl_proj projBuf _ _ (fun a k => ?_) _ _
  cases hb : p.bias with
  | none =>
    exact gen_weight_row_proj p k a
  | some bv =>
    show projBuf (gen_bias_row p bv k (gen_weight_row p k a))
      = addAt bv.data (k * p.outputLoopSize) p.outputLoopSize
          (affine_weight_inner p.input.data p.weight.data
            p.inputLoopSize p.outputLoopSize
            (k * p.inputLoopSize) (k * p.outputLoopSize) (projBuf a))
    rw [gen_bias_row_proj, gen_weight_row_proj]

/-- The generic weight stage keeps the shape and the type tag of the
output variable. -/
theorem gen_weight_row_fixed (p : AffineImpl) (k : ℕ) (s : GenBuf)
    (h : s.var.shape = p.output.shape ∧ s.var.type = p.output.type) :
    (gen_weight_row p k s).var.shape = p.output.shape
      ∧ (gen_weight_row p k s).var.type = p.output.type := by
  unfold gen_weight_row
  refine foldl_keeps
    (fun t : GenBuf => t.var.shape = p.output.shape ∧ t.var.type = p.output.type)
    _ (fun sj j hj => ?_) _ _ h
  refine foldl_keeps
    (fun t : GenBuf => t.var.shape = p.output.shape ∧ t.var.type = p.output.type)
    _ (fun si i hi => ?_) _ _ hj
  exact hi

/-- The generic bias stage keeps the shape and the type tag of the
output variable. -/
theorem gen_bias_row_fixed (p : AffineImpl) (bv : Variable) (k : ℕ) (s : GenBuf)
    (h : s.var.shape = p.output.shape ∧ s.var.type = p.output.type) :
    (gen_bias_row p bv k s).var.shape = p.output.shape
      ∧ (gen_bias_row p bv k s).var.type = p.output.type := by
  unfold gen_bias_row
  refine foldl_keeps
    (fun t : GenBuf => t.var.shape = p.output.shape ∧ t.var.type = p.output.type)
    _ (fun si i hi => ?_) _ _ h
  exact hi

/-- Every write of the generic path keeps the shape and the type tag of
the output variable. -/
theorem gen_rows_var_fixed (p : AffineImpl) (s : GenBuf)
    (h : s.var.shape = p.output.shape ∧ s.var.type = p.output.type) :
    (gen_rows p (gen_zero_fill p s)).var.shape = p.output.shape
      ∧ (gen_rows p (gen_zero_fill p s)).var.type = p.output.type := by
  have hz := foldl_keeps
    (fun t : GenBuf => t.var.shape = p.output.shape ∧ t.var.type = p.output.type)
    (fun acc i => genWrite (selectSetter p.output) acc i 0)
    (fun a c ha => ha) (List.range p.outputSize) s h
  refine foldl_keeps
    (fun t : GenBuf => t.var.shape = p.output.shape ∧ t.var.type = p.output.type)
    _ (fun a k ha => ?_) (List.range p.baseLoopSize) _ hz
  have hw := gen_weight_row_fixed p k a ha
  cases hbias : p.bias with
  | none => exact hw
  | some bv => exact gen_bias_row_fixed p bv k _ hw

/-- The generic strategy computes, step for step, the same result as the
direct strategy: on the canonical-value model the two executions agree as
whole results, output variable and write log alike. -/
theorem exec_affine_generic_eq (p : AffineImpl) :
    exec_affine_generic p = exec_affine_float p := by
  have hproj : projBuf (gen_rows p (gen_zero_fill p ⟨p.output, []⟩))
      = affine_rows p.input.data p.weight.data (p.bias.map fun v => v.data)
          p.baseLoopSize p.inputLoopSize p.outputLoopSize
          (memsetZero ⟨p.output.data, []⟩ p.outputSize) := by
    rw [gen_rows_proj, gen_zero_fill_proj]
    rfl
  have hfix := gen_rows_var_fixed p ⟨p.output, []⟩ ⟨rfl, rfl⟩
  have hdata := congrArg FloatBuf.data hproj
  have hlog := congrArg FloatBuf.log hproj
  have hvar : (gen_rows p (gen_zero_fill p ⟨p.output, []⟩)).var
      = { p.output with
          data := (affine_rows p.input.data p.weight.data
            (p.bias.map fun v => v.data)
            p.baseLoopSize p.inputLoopSize p.outputLoopSize
            (memsetZero ⟨p.output.data, []⟩ p.outputSize)).data } := by
    have hv : (gen_rows p (gen_zero_fill p ⟨p.output, []⟩)).var
        = ⟨(gen_rows p (gen_zero_fill p ⟨p.output, []⟩)).var.shape,
           (gen_rows p (gen_zero_fill p ⟨p.output, []⟩)).var.type,
           (gen_rows p (gen_zero_fill p ⟨p.output, []⟩)).var.data⟩ := rfl
    rw [hv, hfix.1, hfix.2]
    show Variable.mk _ _ (projBuf (gen_rows p (gen_zero_fill p ⟨p.output, []⟩))).data = _
    rw [hdata]
  show ({ p with output := (gen_rows p (gen_zero_fill p ⟨p.output, []⟩)).var },
        (gen_rows p (gen_zero_fill p ⟨p.output, []⟩)).log)
      = ({ p with output := { p.output with
            data := (affine_rows p.input.data p.weight.data
              (p.bias.map fun v => v.data)
              p.baseLoopSize p.inputLoopSize p.outputLoopSize
              (memsetZero ⟨p.output.data, []⟩ p.outputSize)).data } },
          (affine_rows p.input.data p.weight.data (p.bias.map fun v => v.data)
            p.baseLoopSize p.inputLoopSize p.outputLoopSize
            (memsetZero ⟨p.output.data, []⟩ p.outputSize)).log)
  rw [hvar]
  exact congrArg (Prod.mk _) hlog

/-- Whatever branch the dispatch takes, exec computes the direct
result. -/
theorem exec_affine_eq_float (p : AffineImpl) :
    exec_affine p = exec_affine_float p := by
  unfold exec_affine
  by_cases h : affine_float_applicable p
  · rw [if_pos h]
  · rw [if_neg h, exec_affine_generic_eq]

/-- The running product over a shape splits at any axis. -/
theorem listProd_take_drop (l : List ℕ) (n : ℕ) :
    listProd (l.take n) * listProd (l.drop n) = listProd l := by
  have h : ∀ m : List ℕ, listProd m = m.prod := fun m => by
    rw [listProd, List.prod_eq_foldl]
  rw [h, h, h]
  exact List.prod_take_mul_prod_drop l n

set_option maxHeartbeats 4000000 in
/-- C1: on the spec scenario (input shape [2,3], base_axis 1, weight
[3,4] with rows [1,0,0,0], [0,1,0,0], [0,0,1,0], bias [1,1,1,1], output
shape [2,4], input [[1,2,3],[4,5,6]]) exec writes exactly
[[2,3,4,1],[5,6,7,1]]; in general, for every batch row k and output
feature i of a bound kernel with a bound bias whose row positions lie
inside the output buffer, exec produces the row sum over j of
input[k,j] * weight[j,i] plus bias[i]. -/
theorem affine_exec_scenario_and_rowsum :
    (∀ q, q < 8 → (exec_affine_float sImpl).1.output.data q
        = ([2, 3, 4, 1, 5, 6, 7, 1] : List ℚ).getD q 0)
    ∧ ∀ (p : AffineImpl) (bv : Variable) (k i : ℕ),
        p.bias = some bv → k < p.baseLoopSize → i < p.outputLoopSize →
        p.baseLoopSize * p.outputLoopSize ≤ p.outputSize →
        (exec_affine_float p).1.output.data (k * p.outputLoopSize + i)
          = (∑ j ∈ Finset.range p.inputLoopSize,
              p.input.data (k * p.inputLoopSize + j)
                * p.weight.data (j * p.outputLoopSize + i))
            + bv.data i := by
  constructor
  · have hs : sImpl = ⟨1, sIn, sW, some sB, sOut, 8, 2, 3, 4⟩ := rfl
    have h2 : List.range 2 = [0, 1] := rfl
    have h3 : List.range 3 = [0, 1, 2] := rfl
    have h4 : List.range 4 = [0, 1, 2, 3] := rfl
    have h8 : List.range 8 = [0, 1, 2, 3, 4, 5, 6, 7] := rfl
    intro q hq
    interval_cases q <;>
      norm_num [hs, exec_affine_float, affine_rows, affine_weight_inner, addAt,
        memsetZero, bufStore, h2, h3, h4, h8, sIn, sW, sB, sOut, List.getD]
  · intro p bv k i hb hk hi hos
    have h := exec_affine_float_at p k i hk hi hos
    rw [hb] at h
    exact h

/-- Witness for C1: the general row-sum formula instantiated on the
scenario kernel at row 1, output feature 0. -/
theorem affine_exec_scenario_and_rowsum_witness :
    (exec_affine_float sImpl).1.output.data (1 * sImpl.outputLoopSize + 0)
      = (∑ j ∈ Finset.range sImpl.inputLoopSize,
          sImpl.input.data (1 * sImpl.inputLoopSize + j)
            * sImpl.weight.data (j * sImpl.outputLoopSize + 0))
        + sB.data 0 :=
  affine_exec_scenario_and_rowsum.2 sImpl sB 1 0 rfl (by decide) (by decide)
    (by decide)

/-- C2: when input, weight, output, and the bias when present, all carry
the Float32 tag, the generic strategy writes the same values into the
output buffer as the direct strategy. -/
theorem affine_generic_matches_direct :
    ∀ p : AffineImpl,
      p.input.type = DataType.float → p.weight.type = DataType.float →
      p.output.type = DataType.float →
      p.bias.elim True (fun b => b.type = DataType.float) →
      (exec_affine_generic p).1.output.data
        = (exec_affine_float p).1.output.data :=
  fun p _ _ _ _ =>
    congrArg (fun r : AffineImpl × List ℕ => r.1.output.data)
      (exec_affine_generic_eq p)

/-- Witness for C2: the scenario kernel, all operands Float32. -/
theorem affine_generic_matches_direct_witness :
    (exec_affine_generic sImpl).1.output.data
      = (exec_affine_float sImpl).1.output.data :=
  affine_generic_matches_direct sImpl rfl rfl rfl rfl

/-- C3: under the intended dispatch condition stated by the spec (the
source guard at affine.c lines 106-109 has unbalanced parentheses and
does not parse), exec dispatches to the direct strategy exactly when
input, weight and output are Float32 and the bias is absent or Float32,
and to the generic strategy in every other case. -/
theorem affine_dispatch_intended_condition :
    ∀ p : AffineImpl,
      (affine_float_applicable p = true ↔
        (p.input.type = DataType.float ∧ p.weight.type = DataType.float
          ∧ p.output.type = DataType.float
          ∧ ∀ b, p.bias = some b → b.type = DataType.float))
      ∧ (affine_float_applicable p = true → exec_affine p = exec_affine_float p)
      ∧ (affine_float_applicable p = false →
          exec_affine p = exec_affine_generic p) := by
  intro p
  refine ⟨?_, ?_, ?_⟩
  · cases hb : p.bias with
    | none =>
      simp only [affine_float_applicable, hb, Bool.and_eq_true,
        decide_eq_true_eq]
      constructor
      · rintro ⟨⟨⟨h1, h2⟩, h3⟩, _⟩
        exact ⟨h1, h3, h2, fun b hb2 => nomatch hb2⟩
      · rintro ⟨h1, h2, h3, _⟩
        exact ⟨⟨⟨h1, h3⟩, h2⟩, trivial⟩
    | some bv =>
      simp only [affine_float_applicable, hb, Bool.and_eq_true,
        decide_eq_true_eq]
      constructor
      · rintro ⟨⟨⟨h1, h2⟩, h3⟩, h4⟩
        exact ⟨h1, h3, h2, fun b hb2 => (Option.some.inj hb2) ▸ h4⟩
      · rintro ⟨h1, h2, h3, h4⟩
        exact ⟨⟨⟨h1, h3⟩, h2⟩, h4 bv rfl⟩
  · intro h
    unfold exec_affine
    rw [if_pos h]
  · intro h
    unfold exec_affine
    rw [if_neg (by rw [h]; exact fun hc => nomatch hc)]

/-- Witness for C3: a kernel with a non-Float32 input dispatches to the
generic strategy. -/
theorem affine_dispatch_intended_condition_witness :
    exec_affine gP = exec_affine_generic gP :=
  (affine_dispatch_intended_condition gP).2.2 (by decide)

/-- C4: for every successful bind with base_axis at most the input rank
and with the leading output dimensions multiplying to base_loop_size,
base_loop_size * input_loop_size is the input element count and
base_loop_size * output_loop_size is the output element count. -/
theorem affine_geometry_products :
    ∀ (axis : ℕ) (ins outs : List Variable) (p : AffineImpl),
      allocate_affine_config axis ins outs = Except.ok p →
      axis ≤ p.input.shape.length →
      listProd (p.output.shape.take axis) = p.baseLoopSize →
      p.baseLoopSize * p.inputLoopSize = listProd p.input.shape
        ∧ p.baseLoopSize * p.outputLoopSize = listProd p.output.shape := by
  intro axis ins outs p hok _ hout
  unfold allocate_affine_config at hok
  by_cases hc : (ins.length = 2 ∨ ins.length = 3) ∧ outs.length = 1
  · rw [if_pos hc] at hok
    injection hok with hok
    subst hok
    constructor
    · exact listProd_take_drop (ins.getD 0 defaultVariable).shape axis
    · show listProd ((ins.getD 0 defaultVariable).shape.take axis)
          * listProd ((outs.getD 0 defaultVariable).shape.drop axis)
        = listProd (outs.getD 0 defaultVariable).shape
      have hout2 : listProd ((outs.getD 0 defaultVariable).shape.take axis)
          = listProd ((ins.getD 0 defaultVariable).shape.take axis) := hout
      rw [← hout2]
      exact listProd_take_drop (outs.getD 0 defaultVariable).shape axis
  · rw [if_neg hc] at hok
    exact absurd hok (fun h => nomatch h)

/-- Witness for C4: the scenario binding. -/
theorem affine_geometry_products_witness :
    sImpl.baseLoopSize * sImpl.inputLoopSize = listProd sImpl.input.shape
      ∧ sImpl.baseLoopSize * sImpl.outputLoopSize
          = listProd sImpl.output.shape :=
  affine_geometry_products 1 [sIn, sW, sB] [sOut] sImpl rfl (by decide)
    (by decide)

/-- Counterexample for C5: a 5-element weight bound against extents
3 * 4 = 12 is accepted by bind, which builds Resolved State anyway. -/
theorem affine_bind_accepts_mismatched_weight :
    bindOk (allocate_affine_config 1 [sIn, c5W, sB] [sOut]) = true
      ∧ listProd c5W.shape = 5
      ∧ (implOf (allocate_affine_config 1 [sIn, c5W, sB] [sOut])).inputLoopSize
          * (implOf (allocate_affine_config 1 [sIn, c5W, sB] [sOut])).outputLoopSize
          = 12
      ∧ listProd c5W.shape
          ≠ (implOf (allocate_affine_config 1 [sIn, c5W, sB] [sOut])).inputLoopSize
            * (implOf (allocate_affine_config 1 [sIn, c5W, sB] [sOut])).outputLoopSize := by
  refine ⟨rfl, rfl, rfl, by decide⟩

/-- C5 amended: bind checks only the two arity assertions; it performs no
validation of weight or bias element counts against the loop extents, and
succeeds exactly when the arities are 2 or 3 inputs and 1 output. -/
theorem affine_bind_checks_arity_only :
    ∀ (axis : ℕ) (ins outs : List Variable),
      bindOk (allocate_affine_config axis ins outs) = true
        ↔ ((ins.length = 2 ∨ ins.length = 3) ∧ outs.length = 1) := by
  intro axis ins outs
  unfold allocate_affine_config bindOk
  by_cases hc : (ins.length = 2 ∨ ins.length = 3) ∧ outs.length = 1
  · rw [if_pos hc]
    exact ⟨fun _ => hc, fun _ => rfl⟩
  · rw [if_neg hc]
    exact ⟨(fun h => nomatch h), fun h => absurd h hc⟩

/-- Witness for C5 amended: a 2-input, 1-output bind succeeds. -/
theorem affine_bind_checks_arity_only_witness :
    bindOk (allocate_affine_config 1 [sIn, sW] [sOut]) = true :=
  (affine_bind_checks_arity_only 1 [sIn, sW] [sOut]).mpr ⟨Or.inl rfl, rfl⟩

/-- Counterexample for C6: base_axis 3 on an input of rank 2 is out of
range, yet bind succeeds and builds Resolved State. -/
theorem affine_bind_accepts_out_of_range_axis :
    sIn.shape.length = 2
      ∧ bindOk (allocate_affine_config 3 [sIn, sW] [sOut]) = true :=
  ⟨rfl, rfl⟩

/-- C6 amended: bind with 1 input or with 2 outputs always fails the
arity assertions and builds no Resolved State; the base_axis range is
not checked. -/
theorem affine_bind_arity_failures :
    ∀ (axis : ℕ) (ins outs : List Variable),
      (ins.length = 1 → bindOk (allocate_affine_config axis ins outs) = false)
      ∧ (outs.length = 2 → bindOk (allocate_affine_config axis ins outs) = false) := by
  intro axis ins outs
  constructor
  · intro h1
    unfold allocate_affine_config bindOk
    have hnc : ¬ ((ins.length = 2 ∨ ins.length = 3) ∧ outs.length = 1) := by
      rintro ⟨h3 | h3, _⟩ <;> omega
    rw [if_neg hnc]
  · intro h2
    unfold allocate_affine_config bindOk
    have hnc : ¬ ((ins.length = 2 ∨ ins.length = 3) ∧ outs.length = 1) := by
      rintro ⟨_, h4⟩
      omega
    rw [if_neg hnc]

/-- Witness for C6 amended: a 1-input bind fails. -/
theorem affine_bind_arity_failures_witness :
    bindOk (allocate_affine_config 1 [sIn] [sOut]) = false :=
  (affine_bind_arity_failures 1 [sIn] [sOut]).1 rfl

/-- C7: binding with an all-zero third bias variable and executing gives
the same output data as binding only input and weight (no bias, the bias
stage skipped) and executing. -/
theorem affine_zero_bias_omission :
    ∀ (axis : ℕ) (vin vw vb vout : Variable),
      vb.data = (fun _ => (0 : ℚ)) →
      (exec_affine (implOf (allocate_affine_config axis [vin, vw, vb] [vout]))).1.output.data
        = (exec_affine (implOf (allocate_affine_config axis [vin, vw] [vout]))).1.output.data := by
  intro axis vin vw vb vout hzero
  rw [exec_affine_eq_float, exec_affine_eq_float]
  have h3 : implOf (allocate_affine_config axis [vin, vw, vb] [vout])
      = { baseAxis := axis, input := vin, weight := vw, bias := some vb,
          output := vout,
          outputSize := listProd vout.shape,
          baseLoopSize := listProd (vin.shape.take axis),
          inputLoopSize := listProd (vin.shape.drop axis),
          outputLoopSize := listProd (vout.shape.drop axis) } := rfl
  have h2 : implOf (allocate_affine_config axis [vin, vw] [vout])
      = { baseAxis := axis, input := vin, weight := vw, bias := none,
          output := vout,
          outputSize := listProd vout.shape,
          baseLoopSize := listProd (vin.shape.take axis),
          inputLoopSize := listProd (vin.shape.drop axis),
          outputLoopSize := listProd (vout.shape.drop axis) } := rfl
  rw [h3, h2]
  rw [exec_affine_float_output, exec_affine_float_output]
  show (affine_rows vin.data vw.data (some vb.data)
      (listProd (vin.shape.take axis)) (listProd (vin.shape.drop axis))
      (listProd (vout.shape.drop axis))
      (memsetZero ⟨vout.data, []⟩ (listProd vout.shape))).data = _
  rw [hzero]
  exact affine_rows_zero_bias _ _ _ _ _ _ _ rfl

/-- Witness for C7: the scenario input and weight with an all-zero bias
against the same binding without bias. -/
theorem affine_zero_bias_omission_witness :
    (exec_affine (implOf (allocate_affine_config 1 [sIn, sW, zB] [sOut]))).1.output.data
      = (exec_affine (implOf (allocate_affine_config 1 [sIn, sW] [sOut]))).1.output.data :=
  affine_zero_bias_omission 1 sIn sW zB sOut rfl

/-- C8: exec writes only into the output variable data: for each of the
three exec entry points, the input, weight and bias variables, the
configuration, the stored extents, the output shape and type tag, and
the accessors resolved from them, are all unchanged. -/
theorem affine_exec_touches_only_output :
    ∀ p : AffineImpl,
      ((exec_affine_float p).1.input = p.input
        ∧ (exec_affine_float p).1.weight = p.weight
        ∧ (exec_affine_float p).1.bias = p.bias
        ∧ (exec_affine_float p).1.baseAxis = p.baseAxis
        ∧ (exec_affine_float p).1.outputSize = p.outputSize
        ∧ (exec_affine_float p).1.baseLoopSize = p.baseLoopSize
        ∧ (exec_affine_float p).1.inputLoopSize = p.inputLoopSize
        ∧ (exec_affine_float p).1.outputLoopSize = p.outputLoopSize
        ∧ (exec_affine_float p).1.output.shape = p.output.shape
        ∧ (exec_affine_float p).1.output.type = p.output.type)
      ∧ ((exec_affine_generic p).1.input = p.input
        ∧ (exec_affine_generic p).1.weight = p.weight
        ∧ (exec_affine_generic p).1.bias = p.bias
        ∧ (exec_affine_generic p).1.baseAxis = p.baseAxis
        ∧ (exec_affine_generic p).1.outputSize = p.outputSize
        ∧ (exec_affine_generic p).1.baseLoopSize = p.baseLoopSize
        ∧ (exec_affine_generic p).1.inputLoopSize = p.inputLoopSize
        ∧ (exec_affine_generic p).1.outputLoopSize = p.outputLoopSize
        ∧ (exec_affine_generic p).1.output.shape = p.output.shape
        ∧ (exec_affine_generic p).1.output.type = p.output.type)
      ∧ ((exec_affine p).1.input = p.input
        ∧ (exec_affine p).1.weight = p.weight
        ∧ (exec_affine p).1.bias = p.bias
        ∧ (exec_affine p).1.output.shape = p.output.shape
        ∧ (exec_affine p).1.output.type = p.output.type)
      ∧ selectGetter (exec_affine_float p).1.input = selectGetter p.input
      ∧ selectGetter (exec_affine_float p).1.weight = selectGetter p.weight
      ∧ selectSetter (exec_affine_float p).1.output = selectSetter p.output := by
  intro p
  refine ⟨⟨rfl, rfl, rfl, rfl, rfl, rfl, rfl, rfl, rfl, rfl⟩, ?_, ?_, rfl, rfl, rfl⟩
  · rw [exec_affine_generic_eq]
    exact ⟨rfl, rfl, rfl, rfl, rfl, rfl, rfl, rfl, rfl, rfl⟩
  · rw [exec_affine_eq_float]
    exact ⟨rfl, rfl, rfl, rfl, rfl⟩

/-- Counterexample for C9: the empty-batch kernel (base_loop_size 0 from
the empty leading input dimension) still zero-fills its whole 8-element
output buffer: exec performs 8 writes, not 0. -/
theorem affine_empty_batch_still_clears :
    c9P.baseLoopSize = 0 ∧ c9P.outputSize = 8
      ∧ (exec_affine c9P).2.length = 8
      ∧ (exec_affine c9P).2 ≠ [] := by
  refine ⟨rfl, rfl, by decide, by decide⟩

/-- C9 amended: with base_loop_size 0 the accumulation and bias stages
never run, and exec performs exactly output_size writes, all from the
zero-fill of the output buffer; when the output buffer is itself empty
(output_size 0, the consistently shaped case) exec writes nothing and
the output data is untouched. -/
theorem affine_empty_batch_writes :
    ∀ p : AffineImpl, p.baseLoopSize = 0 →
      ((exec_affine_float p).2.length = p.outputSize
        ∧ (exec_affine_generic p).2.length = p.outputSize
        ∧ (p.outputSize = 0 →
            (exec_affine_float p).2 = []
              ∧ (exec_affine_float p).1.output.data = p.output.data)) := by
  intro p hbl
  have hlog : (exec_affine_float p).2 = List.range p.outputSize := by
    rw [exec_affine_float_log, hbl]
    show (memsetZero ⟨p.output.data, []⟩ p.outputSize).log = _
    rw [memsetZero_log]
    exact List.nil_append _
  refine ⟨by rw [hlog, List.length_range], ?_, ?_⟩
  · rw [exec_affine_generic_eq, hlog, List.length_range]
  · intro hos
    constructor
    · rw [hlog, hos]
      rfl
    · rw [exec_affine_float_output, hbl]
      show (memsetZero ⟨p.output.data, []⟩ p.outputSize).data = p.output.data
      rw [hos]
      rfl

/-- Witness for C9 amended: the empty-batch kernel writes exactly its
output_size elements. -/
theorem affine_empty_batch_writes_witness :
    (exec_affine_float c9P).2.length = c9P.outputSize :=
  (affine_empty_batch_writes c9P (by decide)).1

/-- Counterexample for C10: on the spill kernel (two batch rows but a
one-element output buffer) running exec twice leaves a different value at
flat index 1 than running it once: the write of row 1 lands past the
zero-filled region and accumulates on whatever was there. -/
theorem affine_exec_twice_differs :
    (exec_affine (exec_affine c10P).1).1.output.data 1
      ≠ (exec_affine c10P).1.output.data 1 := by
  rw [exec_affine_eq_float, exec_affine_eq_float c10P]
  have hc : c10P = ⟨1, c10In, c10W, none, c10Out, 1, 2, 1, 1⟩ := rfl
  have h1 : List.range 1 = [0] := rfl
  have h2 : List.range 2 = [0, 1] := rfl
  norm_num [hc, exec_affine_float, affine_rows, affine_weight_inner, addAt,
    memsetZero, bufStore, h1, h2, c10In, c10W, c10Out]

/-- C10 amended: provided every row position lies inside the zero-filled
region (base_loop_size * output_loop_size at most output_size, as holds
for consistently shaped bindings), the output data below output_size is
independent of the prior contents of the output buffer, and running exec
twice leaves exactly the data of running it once. -/
theorem affine_exec_prior_output_independent :
    ∀ (p : AffineImpl) (d₁ d₂ : ℕ → ℚ),
      p.baseLoopSize * p.outputLoopSize ≤ p.outputSize →
      ((∀ q, q < p.outputSize →
          (exec_affine_float { p with output := { p.output with data := d₁ } }).1.output.data q
            = (exec_affine_float { p with output := { p.output with data := d₂ } }).1.output.data q)
        ∧ (exec_affine_float (exec_affine_float p).1).1.output.data
            = (exec_affine_float p).1.output.data) := by
  intro p d₁ d₂ hos
  constructor
  · exact fun q hq => exec_affine_float_insensitive p d₁ d₂ hos q hq
  · funext q
    by_cases hq : q < p.outputSize
    · exact exec_affine_float_insensitive p
        ((exec_affine_float p).1.output.data) p.output.data hos q hq
    · push_neg at hq
      exact exec_affine_float_ge (exec_affine_float p).1 q hos hq

/-- Witness for C10 amended: on the scenario kernel exec is idempotent
on the output data. -/
theorem affine_exec_prior_output_independent_witness :
    (exec_affine_float (exec_affine_float sImpl).1).1.output.data
      = (exec_affine_float sImpl).1.output.data :=
  (affine_exec_prior_output_independent sImpl (fun _ => 0) (fun _ => 0)
    (by decide)).2
